import Mathlib

/-!
# Verification of the Step Tracker backend (`backend/main.py`)

A shallow embedding of the step-tracking API in `src/backend/main.py`:
per-user per-day step counts stored in a document store, with a create
operation, a filtered list operation, a leaderboard aggregation, a user
creation operation and a diagnostics endpoint.

Modelling conventions:
* Python dicts (Mongo documents, query filters, collections) are ordered
  association lists with the usual first-match lookup; `aset` models
  `d[k] = v` (update in place if the key exists, else append).
* Calendar dates are modelled as natural numbers (only their linear order
  matters to the code).
* Mongo numeric values that may be non-integral (doubles) are modelled by
  unnormalised fractions `Frac` (integer numerator, positive natural
  denominator); `Frac.val` interprets them in `ℚ`.  This keeps every
  operation of the model kernel-computable.
* The store primitives `create_document` / `get_documents` and the schema
  types live in `database.py` / `schemas.py`, which are part of the
  repository but not retrieved; they are modelled from the spec (§4.1,
  §4.2) and marked as such.
* Handlers return `Except HTTPError α`: `.error` models a raised
  `HTTPException` (no result, no store interaction recorded).
-/

namespace StepTracker

/-! ## Fractions: kernel-computable stand-in for Mongo numeric results -/

/-- An unnormalised fraction: the value `num / den`.  Used for the values a
Mongo `$sum` can produce, which need not be integral. -/
structure Frac where
  num : ℤ
  den : ℕ+
deriving DecidableEq

/-- The rational value of a fraction. -/
def Frac.val (a : Frac) : ℚ := (a.num : ℚ) / ((a.den : ℕ) : ℚ)

/-- Fraction addition, without normalisation. -/
def Frac.add (a b : Frac) : Frac :=
  ⟨a.num * ((b.den : ℕ) : ℤ) + b.num * ((a.den : ℕ) : ℤ), a.den * b.den⟩

/-- The zero fraction (`$sum` of an empty group). -/
def Frac.zero : Frac := ⟨0, 1⟩

/-- A fraction with integral value. -/
def Frac.ofInt (n : ℤ) : Frac := ⟨n, 1⟩

/-- Boolean comparison `a ≤ b`, by cross-multiplication. -/
def Frac.ble (a b : Frac) : Bool :=
  decide (a.num * ((b.den : ℕ) : ℤ) ≤ b.num * ((a.den : ℕ) : ℤ))

/-- Boolean comparison `a < b`, by cross-multiplication. -/
def Frac.blt (a b : Frac) : Bool :=
  decide (a.num * ((b.den : ℕ) : ℤ) < b.num * ((a.den : ℕ) : ℤ))

/-- Sum of a list of fractions, as Mongo's `$sum` (0 on the empty list). -/
def fracSum (l : List Frac) : Frac := l.foldr Frac.add Frac.zero

theorem Frac.den_pos_q (a : Frac) : (0 : ℚ) < ((a.den : ℕ) : ℚ) := by
  exact_mod_cast a.den.2

theorem Frac.val_ofInt (n : ℤ) : (Frac.ofInt n).val = (n : ℚ) := by
  simp [Frac.ofInt, Frac.val]

theorem Frac.val_zero : Frac.zero.val = 0 := by
  simp [Frac.zero, Frac.val]

theorem Frac.val_add (a b : Frac) : (Frac.add a b).val = a.val + b.val := by
  have ha := a.den_pos_q
  have hb := b.den_pos_q
  simp only [Frac.add, Frac.val] at *
  rw [div_add_div _ _ (ne_of_gt ha) (ne_of_gt hb)]
  push_cast
  ring_nf

theorem Frac.ble_iff (a b : Frac) : Frac.ble a b = true ↔ a.val ≤ b.val := by
  rw [Frac.ble, decide_eq_true_eq, Frac.val, Frac.val,
    div_le_div_iff₀ a.den_pos_q b.den_pos_q]
  constructor
  · intro h; exact_mod_cast h
  · intro h; exact_mod_cast h

theorem Frac.blt_iff (a b : Frac) : Frac.blt a b = true ↔ a.val < b.val := by
  rw [Frac.blt, decide_eq_true_eq, Frac.val, Frac.val,
    div_lt_div_iff₀ a.den_pos_q b.den_pos_q]
  constructor
  · intro h; exact_mod_cast h
  · intro h; exact_mod_cast h

/-- Python's `int()` on a numeric value: truncation toward zero.  This is
what `int(r["total_steps"])` applies to each raw aggregation value. -/
def pyInt (a : Frac) : ℤ := a.num.tdiv ((a.den : ℕ) : ℤ)

/-- Truncation toward zero on `ℚ`, the mathematical reading of `int()`. -/
def ratTrunc (q : ℚ) : ℤ := if 0 ≤ q then ⌊q⌋ else ⌈q⌉

theorem pyInt_eq_ratTrunc (a : Frac) : pyInt a = ratTrunc a.val := by
  obtain ⟨n, d⟩ := a
  have hd : (0 : ℤ) ≤ ((d : ℕ) : ℤ) := Int.ofNat_nonneg _
  have hdq : (0 : ℚ) < ((d : ℕ) : ℚ) := by exact_mod_cast d.2
  rcases le_or_lt 0 n with hn | hn
  · have hval : (0 : ℚ) ≤ Frac.val ⟨n, d⟩ := by
      unfold Frac.val
      exact div_nonneg (by exact_mod_cast hn) hdq.le
    rw [ratTrunc, if_pos hval, pyInt]
    unfold Frac.val
    rw [Rat.floor_intCast_div_natCast, Int.tdiv_eq_ediv hn hd]
  · have hval : ¬ (0 : ℚ) ≤ Frac.val ⟨n, d⟩ := by
      unfold Frac.val
      rw [not_le]
      exact div_neg_of_neg_of_pos (by exact_mod_cast hn) hdq
    rw [ratTrunc, if_neg hval, pyInt]
    have h1 : (-n).tdiv ((d : ℕ) : ℤ) = (-n) / ((d : ℕ) : ℤ) :=
      Int.tdiv_eq_ediv (by omega) hd
    have h2 : ⌊((-n : ℤ) : ℚ) / (((d : ℕ) : ℚ))⌋ = (-n) / ((d : ℕ) : ℤ) :=
      Rat.floor_intCast_div_natCast (-n) (d : ℕ)
    have h3 : ((-n : ℤ) : ℚ) / (((d : ℕ) : ℚ)) = -(Frac.val ⟨n, d⟩) := by
      unfold Frac.val
      push_cast
      ring
    calc n.tdiv ((d : ℕ) : ℤ)
        = -((-n).tdiv ((d : ℕ) : ℤ)) := by rw [Int.neg_tdiv]; ring
      _ = -((-n) / ((d : ℕ) : ℤ)) := by rw [h1]
      _ = -⌊((-n : ℤ) : ℚ) / (((d : ℕ) : ℚ))⌋ := by rw [h2]
      _ = -⌊-(Frac.val ⟨n, d⟩)⌋ := by rw [h3]
      _ = -(-⌈Frac.val ⟨n, d⟩⌉) := by rw [Int.floor_neg]
      _ = ⌈Frac.val ⟨n, d⟩⌉ := by ring

theorem ratTrunc_intCast (z : ℤ) : ratTrunc (z : ℚ) = z := by
  rcases le_or_lt 0 z with hz | hz
  · rw [ratTrunc, if_pos (by exact_mod_cast hz), Int.floor_intCast]
  · rw [ratTrunc, if_neg (by exact_mod_cast hz.not_le), Int.ceil_intCast]

theorem ratTrunc_mono {q r : ℚ} (h : q ≤ r) : ratTrunc q ≤ ratTrunc r := by
  unfold ratTrunc
  rcases le_or_lt 0 q with hq | hq
  · rw [if_pos hq, if_pos (hq.trans h)]
    exact Int.floor_le_floor h
  · rcases le_or_lt 0 r with hr | hr
    · rw [if_neg hq.not_le, if_pos hr]
      have h1 : ⌈q⌉ ≤ 0 := by
        have : (0 : ℤ) ≤ ⌊-q⌋ := Int.floor_nonneg.mpr (by linarith)
        have h2 : ⌊-q⌋ = -⌈q⌉ := Int.floor_neg
        omega
      have h3 : (0 : ℤ) ≤ ⌊r⌋ := Int.floor_nonneg.mpr hr
      omega
    · rw [if_neg hq.not_le, if_neg hr.not_le]
      exact Int.ceil_le_ceil h

theorem pyInt_mono {a b : Frac} (h : a.val ≤ b.val) : pyInt a ≤ pyInt b := by
  rw [pyInt_eq_ratTrunc, pyInt_eq_ratTrunc]
  exact ratTrunc_mono h

theorem pyInt_ofInt (n : ℤ) : pyInt (Frac.ofInt n) = n := by
  rw [pyInt_eq_ratTrunc, Frac.val_ofInt, ratTrunc_intCast]

/-! ## Rendering of store-assigned identifiers

`database.create_document` (spec §4.1) returns the newly assigned identifier
as a string, and identifiers are never reused (spec §3).  We model the
identifier counter as a natural number and its string rendering as the
decimal numeral, written with a fuel-based digit extractor so that the
definition is kernel-computable.  The facts the claims use are that the
rendering is injective and never the empty string. -/

/-- Little-endian decimal digits of `n`, with explicit fuel. -/
def digitsRev : ℕ → ℕ → List ℕ
  | 0, _ => []
  | fuel + 1, n => if n = 0 then [] else n % 10 :: digitsRev fuel (n / 10)

/-- The number a little-endian digit list denotes. -/
def digitsVal (l : List ℕ) : ℕ := l.foldr (fun d acc => d + 10 * acc) 0

/-- The decimal string of a store-assigned identifier. -/
def oidStr (n : ℕ) : String :=
  if n = 0 then "0" else String.mk (((digitsRev n n).map Nat.digitChar).reverse)

theorem digitsVal_digitsRev : ∀ fuel n, n ≤ fuel → digitsVal (digitsRev fuel n) = n := by
  intro fuel
  induction fuel with
  | zero =>
    intro n hn
    interval_cases n
    simp [digitsRev, digitsVal]
  | succ f ih =>
    intro n hn
    by_cases h0 : n = 0
    · simp [digitsRev, h0, digitsVal]
    · have hlt : n / 10 < n := Nat.div_lt_self (Nat.pos_of_ne_zero h0) (by omega)
      have hrec := ih (n / 10) (by omega)
      simp only [digitsRev, if_neg h0, digitsVal, List.foldr_cons]
      have : digitsVal (digitsRev f (n / 10)) = n / 10 := hrec
      rw [digitsVal] at this
      rw [this]
      omega

theorem digitsRev_lt10 : ∀ fuel n d, d ∈ digitsRev fuel n → d < 10 := by
  intro fuel
  induction fuel with
  | zero => intro n d hd; simp [digitsRev] at hd
  | succ f ih =>
    intro n d hd
    by_cases h0 : n = 0
    · simp [digitsRev, h0] at hd
    · simp only [digitsRev, if_neg h0, List.mem_cons] at hd
      rcases hd with h | h
      · omega
      · exact ih _ _ h

theorem digitChar_inj10 : ∀ a < 10, ∀ b < 10, Nat.digitChar a = Nat.digitChar b → a = b := by
  decide

theorem mapDigitChar_inj :
    ∀ l₁ l₂ : List ℕ, (∀ d ∈ l₁, d < 10) → (∀ d ∈ l₂, d < 10) →
      l₁.map Nat.digitChar = l₂.map Nat.digitChar → l₁ = l₂ := by
  intro l₁
  induction l₁ with
  | nil =>
    intro l₂ _ _ h
    cases l₂ with
    | nil => rfl
    | cons b t => simp at h
  | cons a t ih =>
    intro l₂ h1 h2 h
    cases l₂ with
    | nil => simp at h
    | cons b t' =>
      simp only [List.map_cons, List.cons.injEq] at h
      have hab : a = b :=
        digitChar_inj10 a (h1 a (List.mem_cons_self a t)) b
          (h2 b (List.mem_cons_self b t')) h.1
      have ht : t = t' :=
        ih t' (fun d hd => h1 d (List.mem_cons_of_mem a hd))
          (fun d hd => h2 d (List.mem_cons_of_mem b hd)) h.2
      rw [hab, ht]

theorem digitsRev_ne_nil (n : ℕ) (h : n ≠ 0) : digitsRev n n ≠ [] := by
  cases n with
  | zero => omega
  | succ m => simp [digitsRev]

theorem oidStr_ne_empty (n : ℕ) : oidStr n ≠ "" := by
  by_cases h0 : n = 0
  · subst h0; decide
  · rw [oidStr, if_neg h0]
    intro h
    have : (((digitsRev n n).map Nat.digitChar).reverse : List Char) = [] := by
      have := congrArg String.data h
      simpa using this
    rw [List.reverse_eq_nil_iff, List.map_eq_nil_iff] at this
    exact digitsRev_ne_nil n h0 this

theorem oidStr_injective : ∀ a b : ℕ, oidStr a = oidStr b → a = b := by
  have key : ∀ b : ℕ, b ≠ 0 → "0" ≠ oidStr b := by
    intro b hb h
    rw [oidStr, if_neg hb] at h
    have h1 : ("0".data : List Char) = ((digitsRev b b).map Nat.digitChar).reverse := by
      have := congrArg String.data h
      simpa using this
    have h2 : ((digitsRev b b).map Nat.digitChar) = "0".data.reverse := by
      rw [h1]; simp
    cases hd : digitsRev b b with
    | nil => rw [hd] at h2; simp at h2
    | cons d t =>
      rw [hd] at h2
      have h0char : ("0".data.reverse : List Char) = [(Char.ofNat 48)] := by decide
      rw [h0char] at h2
      simp only [List.map_cons, List.cons.injEq] at h2
      obtain ⟨hdc, htc⟩ := h2
      have hd10 : d < 10 := digitsRev_lt10 b b d (by rw [hd]; exact List.mem_cons_self d t)
      have hdigit : Nat.digitChar 0 = Char.ofNat 48 := by decide
      have hd0 : d = 0 := digitChar_inj10 d hd10 0 (by omega) (by rw [hdc, hdigit])
      have ht : t = [] := List.map_eq_nil_iff.mp htc
      have hv := digitsVal_digitsRev b b le_rfl
      rw [hd, hd0, ht] at hv
      simp [digitsVal] at hv
      exact hb hv.symm
  have h0 : oidStr 0 = "0" := rfl
  intro a b h
  by_cases ha : a = 0
  · by_cases hb : b = 0
    · omega
    · subst ha
      rw [h0] at h
      exact absurd h (key b hb)
  · by_cases hb : b = 0
    · subst hb
      rw [h0] at h
      exact absurd h.symm (key a ha)
    · rw [oidStr, if_neg ha, oidStr, if_neg hb] at h
      have h1 : (((digitsRev a a).map Nat.digitChar).reverse : List Char)
          = ((digitsRev b b).map Nat.digitChar).reverse := by
        have := congrArg String.data h
        simpa using this
      have h2 := List.reverse_injective h1
      have h3 := mapDigitChar_inj _ _ (fun d hd => digitsRev_lt10 a a d hd)
        (fun d hd => digitsRev_lt10 b b d hd) h2
      have hva := digitsVal_digitsRev a a le_rfl
      have hvb := digitsVal_digitsRev b b le_rfl
      rw [h3] at hva
      omega

/-! ## Documents: Python dicts over BSON-like values -/

/-- A stored field value.  `vOid` is a store-assigned ObjectId, `vNum` a
possibly non-integral numeric value, `vNull` Python's `None`. -/
inductive Value where
  | vStr (s : String)
  | vInt (n : ℤ)
  | vNum (q : Frac)
  | vOid (n : ℕ)
  | vDate (d : ℕ)
  | vNull
deriving DecidableEq

/-- A document: an ordered dict from field names to values. -/
abbrev Doc := List (String × Value)

/-- First-match association lookup: Python's `d[k]` / `k in d`. -/
def alookup {β : Type} : List (String × β) → String → Option β
  | [], _ => none
  | (k', v) :: t, k => if k' = k then some v else alookup t k

/-- Python's `d[k] = v` on a dict: overwrite in place when the key exists,
append at the end otherwise. -/
def aset {β : Type} : List (String × β) → String → β → List (String × β)
  | [], k, v => [(k, v)]
  | (k', w) :: t, k, v => if k' = k then (k, v) :: t else (k', w) :: aset t k v

/-- Python's `d.pop(k)` (the removal part): drop the entry for `k`. -/
def removeKey {β : Type} : List (String × β) → String → List (String × β)
  | [], _ => []
  | (k', v) :: t, k => if k' = k then removeKey t k else (k', v) :: removeKey t k

theorem alookup_append {β : Type} (l₁ l₂ : List (String × β)) (k : String) :
    alookup (l₁ ++ l₂) k =
      match alookup l₁ k with
      | some v => some v
      | none => alookup l₂ k := by
  induction l₁ with
  | nil => simp [alookup]
  | cons p t ih =>
    obtain ⟨k', v⟩ := p
    by_cases hk : k' = k
    · simp [alookup, hk]
    · simp [alookup, hk, ih]

theorem alookup_aset_self {β : Type} (l : List (String × β)) (k : String) (v : β) :
    alookup (aset l k v) k = some v := by
  induction l with
  | nil => simp [aset, alookup]
  | cons p t ih =>
    obtain ⟨k', w⟩ := p
    by_cases hk : k' = k
    · simp [aset, hk, alookup]
    · simp [aset, hk, alookup, ih]

theorem alookup_aset_other {β : Type} (l : List (String × β)) (k k' : String) (v : β)
    (h : k' ≠ k) :
    alookup (aset l k v) k' = alookup l k' := by
  induction l with
  | nil =>
    simp only [aset, alookup]
    rw [if_neg fun hc => h hc.symm]
  | cons p t ih =>
    obtain ⟨k'', w⟩ := p
    by_cases hk : k'' = k
    · subst hk
      simp only [aset, if_pos rfl, alookup]
      rw [if_neg fun hc => h hc.symm, if_neg fun hc => h hc.symm]
    · simp only [aset, if_neg hk, alookup]
      by_cases hk2 : k'' = k'
      · rw [if_pos hk2, if_pos hk2]
      · rw [if_neg hk2, if_neg hk2, ih]

theorem alookup_removeKey_self {β : Type} (l : List (String × β)) (j : String) :
    alookup (removeKey l j) j = none := by
  induction l with
  | nil => simp [removeKey, alookup]
  | cons p t ih =>
    obtain ⟨k, v⟩ := p
    by_cases hk : k = j
    · simp [removeKey, hk, ih]
    · simp [removeKey, hk, alookup, ih]

theorem alookup_removeKey_other {β : Type} (l : List (String × β)) (j k : String)
    (h : k ≠ j) :
    alookup (removeKey l j) k = alookup l k := by
  induction l with
  | nil => simp [removeKey]
  | cons p t ih =>
    obtain ⟨k', v⟩ := p
    by_cases hk : k' = j
    · subst hk
      simp only [removeKey, if_pos rfl, if_true, alookup]
      rw [ih, if_neg fun hc => h hc.symm]
    · simp only [removeKey, if_neg hk, alookup]
      by_cases hk2 : k' = k
      · rw [if_pos hk2, if_pos hk2]
      · rw [if_neg hk2, if_neg hk2, ih]

/-! ## `serialize_doc` (`main.py` lines 65-69)

Python:
```
def serialize_doc(doc):
    d = dict(doc)
    if "_id" in d:
        d["id"] = str(d.pop("_id"))
    return d
```
`dict(doc)` builds a fresh dict, so the input is never mutated — in the
embedding `serialize_doc` is a pure function of the input list.  `str` on
the popped value is `valueToString`; the API only ever applies it to the
ObjectId stored under `_id`. -/

/-- Python `str()` on a stored value.  Only the ObjectId branch is reached
through the API; the other renderings are immaterial to the claims. -/
def valueToString : Value → String
  | .vStr s => s
  | .vInt n => toString n
  | .vNum q => toString q.num
  | .vOid n => oidStr n
  | .vDate d => toString d
  | .vNull => "None"

def serialize_doc (d : Doc) : Doc :=
  match alookup d "_id" with
  | some v => aset (removeKey d "_id") "id" (Value.vStr (valueToString v))
  | none => d

theorem serialize_doc_id (d : Doc) (v : Value) (h : alookup d "_id" = some v) :
    alookup (serialize_doc d) "id" = some (Value.vStr (valueToString v)) ∧
      alookup (serialize_doc d) "_id" = none := by
  rw [serialize_doc, h]
  constructor
  · exact alookup_aset_self ..
  · rw [alookup_aset_other _ _ _ _ (by decide)]
    exact alookup_removeKey_self d "_id"

theorem serialize_doc_other (d : Doc) (k : String) (h1 : k ≠ "_id") (h2 : k ≠ "id") :
    alookup (serialize_doc d) k = alookup d k := by
  rw [serialize_doc]
  cases hid : alookup d "_id" with
  | none => rfl
  | some v =>
    rw [alookup_aset_other _ _ _ _ h2]
    exact alookup_removeKey_other d "_id" k h1

theorem serialize_doc_no_id (d : Doc) (h : alookup d "_id" = none) :
    serialize_doc d = d := by
  rw [serialize_doc, h]

/-! ## Query filters

`list_steps` (lines 103-111) and `leaderboard` (lines 123-129) build the
`date` constraint with the same three-way chain:
```
if start_date and end_date: {"$gte": start_date, "$lte": end_date}
elif start_date:            {"$gte": start_date}
elif end_date:              {"$lte": end_date}
```
`date` objects are always truthy in Python, so `if start_date` is exactly
`start_date is not None`. -/

/-- The `{"$gte": ..., "$lte": ...}` constraint on the `date` field. -/
structure DateFilter where
  gte : Option ℕ
  lte : Option ℕ
deriving DecidableEq

/-- The shared three-way construction of the date constraint. -/
def dateFilterOf (sd ed : Option ℕ) : DateFilter :=
  match sd, ed with
  | some a, some b => ⟨some a, some b⟩
  | some a, none => ⟨some a, none⟩
  | none, some b => ⟨none, some b⟩
  | none, none => ⟨none, none⟩

/-- Mongo evaluation of the date constraint on a document: with no bounds
every document matches; with a bound, only documents whose `date` field is
a date within the bounds (Mongo type bracketing: a missing or non-date
field never satisfies a `$gte`/`$lte` date bound). -/
def dateOk (f : DateFilter) (d : Doc) : Bool :=
  match f.gte, f.lte with
  | none, none => true
  | _, _ =>
    match alookup d "date" with
    | some (.vDate x) =>
      (f.gte.all fun a => decide (a ≤ x)) && (f.lte.all fun b => decide (x ≤ b))
    | _ => false

/-- The query dict `list_steps` builds: an optional exact `user` constraint
and the date constraint. -/
structure Query where
  user : Option String
  date : DateFilter
deriving DecidableEq

/-- Mongo evaluation of a `list_steps` query on a document. -/
def docMatches (q : Query) (d : Doc) : Bool :=
  (match q.user with
   | some u => decide (alookup d "user" = some (Value.vStr u))
   | none => true) && dateOk q.date d

/-! ## The store (`database.py`, modelled from the spec)

`database.py` is part of the repository but was not retrieved; §4.1 of the
spec gives its contract.  A `Store` is the document database: named
collections of documents plus the counter from which identifiers are
assigned.  Per §3, identifiers are unique and never reused: identifier `k`
is issued to the `k`-th insert, so the ids issued before a state with
counter `nextId` are exactly `oidStr k` for `k < nextId`. -/

structure Store where
  colls : List (String × List Doc)
  nextId : ℕ
deriving DecidableEq

def getColl (s : Store) (name : String) : List Doc :=
  (alookup s.colls name).getD []

/-- Modelled from the spec (§4.1): `database.create_document` inserts the
validated payload into the named collection with a fresh store-assigned
`_id`, and returns the new identifier as a string. -/
def create_document (s : Store) (name : String) (payload : Doc) : Store × String :=
  let doc := payload ++ [("_id", Value.vOid s.nextId)]
  (⟨aset s.colls name (getColl s name ++ [doc]), s.nextId + 1⟩, oidStr s.nextId)

/-- Modelled from the spec (§4.1): `database.get_documents` returns the
documents of the named collection that satisfy the filter, in store order
(here: insertion order), truncated to the row limit. -/
def get_documents (s : Store) (name : String) (q : Query) (lim : ℕ) : List Doc :=
  ((getColl s name).filter (docMatches q)).take lim

/-! ## Schemas (`schemas.py`, modelled from the spec)

§3/§4.2: a step-log submission has a non-empty user identifier string, a
non-negative integer step count, a calendar date and an optional note; the
validation layer rejects anything else before the store is reached.  The
user payload is opaque (§3), so `create_user` takes an already-validated
document. -/

structure StepLog where
  user : String
  steps : ℕ
  date : ℕ
  note : Option String
deriving DecidableEq

/-- Validity enforced by the validation layer: the user identifier is a
non-empty string (the step count is non-negative by the type `ℕ`). -/
abbrev ValidStepLog (log : StepLog) : Prop := log.user ≠ ""

def noteValue : Option String → Value
  | some s => Value.vStr s
  | none => Value.vNull

/-- The document a validated submission turns into
(`log.model_dump()`-style field list, in declaration order). -/
def stepLogDoc (log : StepLog) : Doc :=
  [("user", Value.vStr log.user), ("steps", Value.vInt (log.steps : ℤ)),
   ("date", Value.vDate log.date), ("note", noteValue log.note)]

/-! ## HTTP errors and the four data-dependent handlers -/

structure HTTPError where
  status : ℕ
  detail : String
deriving DecidableEq

/-- `HTTPException(status_code=500, detail="Database not configured")`,
raised identically by all four data-dependent handlers when `db is None`. -/
def dbNotConfigured : HTTPError := ⟨500, "Database not configured"⟩

/-- `POST /api/steps` (lines 88-95).  On success the new store state and
the `{"id": inserted_id}` payload. -/
def add_steps (db : Option Store) (log : StepLog) : Except HTTPError (Store × String) :=
  match db with
  | none => Except.error dbNotConfigured
  | some s => Except.ok (create_document s "steplog" (stepLogDoc log))

/-- Python truthiness of the optional `user` query parameter: `if user:`
skips both `None` and the empty string. -/
def truthyUser : Option String → Option String
  | some u => if u = "" then none else some u
  | none => none

/-- `GET /api/steps` (lines 98-114). -/
def list_steps (db : Option Store) (user : Option String) (sd ed : Option ℕ)
    (lim : ℕ) : Except HTTPError (List Doc) :=
  match db with
  | none => Except.error dbNotConfigured
  | some s =>
    Except.ok ((get_documents s "steplog" ⟨truthyUser user, dateFilterOf sd ed⟩ lim).map
      serialize_doc)

/-- `POST /api/users` (lines 146-151). -/
def create_user (db : Option Store) (payload : Doc) : Except HTTPError (Store × String) :=
  match db with
  | none => Except.error dbNotConfigured
  | some s => Except.ok (create_document s "user" payload)

/-! ## The leaderboard aggregation (lines 117-143)

The pipeline is `$match?` / `$group by "$user" summing "$steps"` /
`$sort total_steps descending` / `$limit` / `$project`.  Group keys appear
in store-dependent order (modelled: order of first occurrence); `$sum`
skips missing and non-numeric `steps` values and yields 0 for a group with
none; the sort is modelled as a stable insertion sort, ties keeping group
order (the spec leaves tie order open, §9).  The final comprehension
builds `LeaderboardRow(user=r["user"], total_steps=int(r["total_steps"]))`;
a non-string group key would make the row validation fail, turning into a
500 response. -/

/-- The `$group` key `"$user"` of a document (a missing field groups
under null). -/
def keyOf (d : Doc) : Value := (alookup d "user").getD Value.vNull

/-- The numeric reading of a document's `steps` field, as used by
`{"$sum": "$steps"}` (missing/non-numeric values are skipped). -/
def stepsNum (d : Doc) : Option Frac :=
  match alookup d "steps" with
  | some (.vInt n) => some (Frac.ofInt n)
  | some (.vNum q) => some q
  | _ => none

/-- The `$sum` of the `steps` of the documents grouped under key `k`. -/
def groupTotal (D : List Doc) (k : Value) : Frac :=
  fracSum ((D.filter fun d => decide (keyOf d = k)).filterMap stepsNum)

/-- Distinct group keys, in order of first occurrence. -/
def distinctKeys : List Value → List Value
  | [] => []
  | k :: ks => k :: (distinctKeys ks).filter fun j => j != k

/-- A `$group` output row: `{"_id": key, "total_steps": total}`. -/
structure Group where
  key : Value
  total : Frac
deriving DecidableEq

/-- The optional `$match` stage: appended to the pipeline only when the
constraint dict is non-empty (`if match:`). -/
def matchStage (docs : List Doc) (f : DateFilter) : List Doc :=
  if f = ⟨none, none⟩ then docs else docs.filter (dateOk f)

/-- The `$group` stage. -/
def groupStage (D : List Doc) : List Group :=
  (distinctKeys (D.map keyOf)).map fun k => ⟨k, groupTotal D k⟩

/-- Stable descending insertion for the `$sort` stage: `g` is placed
before the first element whose total does not exceed it, so elements with
equal totals keep their group order. -/
def insertDesc (g : Group) : List Group → List Group
  | [] => [g]
  | h :: t => if Frac.ble h.total g.total then g :: h :: t else h :: insertDesc g t

/-- The `$sort {"total_steps": -1}` stage. -/
def sortDesc : List Group → List Group
  | [] => []
  | g :: gs => insertDesc g (sortDesc gs)

/-- A response row of the leaderboard. -/
structure LeaderboardRow where
  user : String
  total_steps : ℤ
deriving DecidableEq

/-- The final list comprehension: each projected group becomes
`LeaderboardRow(user=r["user"], total_steps=int(r["total_steps"]))`; a
non-string key fails response validation (a 500 server error). -/
def rowsOf : List Group → Except HTTPError (List LeaderboardRow)
  | [] => Except.ok []
  | g :: gs =>
    match g.key with
    | .vStr u => (rowsOf gs).map fun rs => ⟨u, pyInt g.total⟩ :: rs
    | _ => Except.error ⟨500, "Internal Server Error"⟩

/-- The documents surviving the (optional) `$match` stage. -/
def matchedDocs (s : Store) (sd ed : Option ℕ) : List Doc :=
  matchStage (getColl s "steplog") (dateFilterOf sd ed)

/-- `GET /api/leaderboard` (lines 117-143). -/
def leaderboard (db : Option Store) (sd ed : Option ℕ) (lim : ℕ) :
    Except HTTPError (List LeaderboardRow) :=
  match db with
  | none => Except.error dbNotConfigured
  | some s => rowsOf ((sortDesc (groupStage (matchedDocs s sd ed))).take lim)

/-! ## The diagnostics endpoint `GET /test` (lines 27-60)

The handler never raises: the only fallible interaction,
`db.list_collection_names()`, is wrapped in its own `try`, its error
rendered as `str(e)[:50]` inside the payload; the outer `try` guards the
same region and no other modelled operation can raise.  The environment
checks at the end overwrite `database_url` / `database_name`
unconditionally. -/

/-- What the handler can observe of the module-level `db` handle: its
`name` attribute when present (`hasattr(db, "name")`), and the outcome of
`db.list_collection_names()` — a list of names, or a raised exception
rendered as a message string. -/
structure DbInfo where
  name : Option String
  listCollectionNames : Except String (List String)

/-- The `/test` response dict; `database_url` / `database_name` may hold
Python `None`. -/
structure TestResponse where
  backend : String
  database : String
  database_url : Option String
  database_name : Option String
  connection_status : String
  collections : List String
deriving DecidableEq

/-- Python string slicing `s[:n]` (by code points). -/
def strTrunc (s : String) (n : ℕ) : String := String.mk (s.data.take n)

def test_database (db : Option DbInfo) (urlSet nameSet : Bool) : TestResponse :=
  let r0 : TestResponse :=
    { backend := "✅ Running", database := "❌ Not Available", database_url := none,
      database_name := none, connection_status := "Not Connected", collections := [] }
  let r1 :=
    match db with
    | some info =>
      let r :=
        { r0 with database := "✅ Available", database_url := some "✅ Configured",
                  database_name := some (info.name.getD "✅ Connected"),
                  connection_status := "Connected" }
      match info.listCollectionNames with
      | Except.ok cols =>
        { r with collections := cols.take 10, database := "✅ Connected & Working" }
      | Except.error e =>
        { r with database := "⚠️  Connected but Error: " ++ strTrunc e 50 }
    | none => { r0 with database := "⚠️  Available but not initialized" }
  { r1 with database_url := some (if urlSet then "✅ Set" else "❌ Not Set"),
            database_name := some (if nameSet then "✅ Set" else "❌ Not Set") }

/-! ## Pipeline lemmas -/

/-- The string a `vStr` key carries. -/
def keyStr : Value → String
  | .vStr u => u
  | _ => ""

/-- The document's `user` field is a string (what response validation of a
leaderboard row needs). -/
def hasStrUser (d : Doc) : Bool :=
  match alookup d "user" with
  | some (.vStr _) => true
  | _ => false

/-- The document's `steps` field is an integer (what every document stored
through the validated API has). -/
def hasIntSteps (d : Doc) : Bool :=
  match alookup d "steps" with
  | some (.vInt _) => true
  | _ => false

/-- A well-formed stored step-log entry: string user, integer steps. -/
def wfStepDoc (d : Doc) : Bool := hasStrUser d && hasIntSteps d

/-- The integer `steps` value of a document. -/
def intSteps (d : Doc) : Option ℤ :=
  match alookup d "steps" with
  | some (.vInt n) => some n
  | _ => none

/-- The arithmetic (integer) sum of the steps of all documents of user `u`
in `D` — the specification-side description of a leaderboard total. -/
def userIntSum (D : List Doc) (u : String) : ℤ :=
  ((D.filter fun d => decide (keyOf d = Value.vStr u)).filterMap intSteps).foldr (· + ·) 0

theorem hasStrUser_iff (d : Doc) :
    hasStrUser d = true ↔ ∃ u, alookup d "user" = some (Value.vStr u) := by
  unfold hasStrUser
  cases h : alookup d "user" with
  | none => simp
  | some v => cases v <;> simp

theorem hasIntSteps_iff (d : Doc) :
    hasIntSteps d = true ↔ ∃ n : ℤ, alookup d "steps" = some (Value.vInt n) := by
  unfold hasIntSteps
  cases h : alookup d "steps" with
  | none => simp
  | some v => cases v <;> simp

theorem keyOf_of_user (d : Doc) (u : String)
    (h : alookup d "user" = some (Value.vStr u)) : keyOf d = Value.vStr u := by
  rw [keyOf, h]
  rfl

theorem matchStage_eq_filter (docs : List Doc) (f : DateFilter) :
    matchStage docs f = docs.filter (dateOk f) := by
  rw [matchStage]
  by_cases h : f = ⟨none, none⟩
  · rw [if_pos h, h]
    exact (List.filter_eq_self.mpr fun a _ => rfl).symm
  · rw [if_neg h]

theorem mem_distinctKeys (k : Value) : ∀ l : List Value, k ∈ distinctKeys l ↔ k ∈ l := by
  intro l
  induction l with
  | nil => simp [distinctKeys]
  | cons a t ih =>
    simp only [distinctKeys, List.mem_cons]
    constructor
    · rintro (rfl | h)
      · exact Or.inl rfl
      · exact Or.inr (ih.mp (List.mem_filter.mp h).1)
    · rintro (rfl | h)
      · exact Or.inl rfl
      · by_cases hk : k = a
        · exact Or.inl hk
        · exact Or.inr (List.mem_filter.mpr ⟨ih.mpr h, by simpa [bne_iff_ne] using hk⟩)

theorem length_insertDesc (g : Group) : ∀ l, (insertDesc g l).length = l.length + 1 := by
  intro l
  induction l with
  | nil => rfl
  | cons h t ih =>
    rw [insertDesc]
    by_cases hlt : Frac.ble h.total g.total
    · rw [if_pos hlt]
      rfl
    · rw [if_neg hlt]
      simp [ih]

theorem mem_insertDesc (x g : Group) : ∀ l, x ∈ insertDesc g l ↔ x = g ∨ x ∈ l := by
  intro l
  induction l with
  | nil => simp [insertDesc]
  | cons h t ih =>
    rw [insertDesc]
    by_cases hlt : Frac.ble h.total g.total
    · rw [if_pos hlt]
      simp [List.mem_cons]
    · rw [if_neg hlt]
      simp only [List.mem_cons, ih]
      tauto

theorem pairwise_insertDesc (g : Group) :
    ∀ l, l.Pairwise (fun a b => b.total.val ≤ a.total.val) →
      (insertDesc g l).Pairwise (fun a b => b.total.val ≤ a.total.val) := by
  intro l
  induction l with
  | nil => intro _; simp [insertDesc]
  | cons h t ih =>
    intro hp
    rw [List.pairwise_cons] at hp
    obtain ⟨hh, ht⟩ := hp
    rw [insertDesc]
    by_cases hlt : Frac.ble h.total g.total
    · rw [if_pos hlt]
      have hgh : h.total.val ≤ g.total.val := (Frac.ble_iff ..).mp hlt
      rw [List.pairwise_cons]
      refine ⟨?_, List.pairwise_cons.mpr ⟨hh, ht⟩⟩
      intro x hx
      rcases List.mem_cons.mp hx with rfl | hx
      · exact hgh
      · exact (hh x hx).trans hgh
    · rw [if_neg hlt]
      have hgh : g.total.val ≤ h.total.val := by
        have := (Frac.ble_iff h.total g.total).not.mp (by simpa using hlt)
        exact (not_le.mp this).le
      rw [List.pairwise_cons]
      refine ⟨?_, ih ht⟩
      intro x hx
      rcases (mem_insertDesc x g t).mp hx with rfl | hx
      · exact hgh
      · exact hh x hx

theorem length_sortDesc : ∀ l : List Group, (sortDesc l).length = l.length := by
  intro l
  induction l with
  | nil => rfl
  | cons g t ih => rw [sortDesc, length_insertDesc, ih]; rfl

theorem mem_sortDesc (x : Group) : ∀ l : List Group, x ∈ sortDesc l ↔ x ∈ l := by
  intro l
  induction l with
  | nil => simp [sortDesc]
  | cons g t ih =>
    rw [sortDesc, mem_insertDesc]
    simp only [List.mem_cons, ih]

theorem pairwise_sortDesc :
    ∀ l : List Group, (sortDesc l).Pairwise (fun a b => b.total.val ≤ a.total.val) := by
  intro l
  induction l with
  | nil => simp [sortDesc]
  | cons g t ih => exact pairwise_insertDesc g (sortDesc t) ih

theorem rowsOf_eq (gs : List Group) (h : ∀ g ∈ gs, ∃ u, g.key = Value.vStr u) :
    rowsOf gs = Except.ok (gs.map fun g => ⟨keyStr g.key, pyInt g.total⟩) := by
  induction gs with
  | nil => rfl
  | cons g t ih =>
    obtain ⟨u, hu⟩ := h g (List.mem_cons_self g t)
    simp only [rowsOf, hu]
    rw [ih fun g hg => h g (List.mem_cons_of_mem _ hg)]
    simp [Except.map, keyStr, hu]

theorem fracSum_val_intSum (L : List Doc) (h : ∀ d ∈ L, hasIntSteps d = true) :
    (fracSum (L.filterMap stepsNum)).val = (((L.filterMap intSteps).foldr (· + ·) 0 : ℤ) : ℚ) := by
  induction L with
  | nil => simp [fracSum, Frac.val_zero]
  | cons d t ih =>
    obtain ⟨n, hn⟩ := (hasIntSteps_iff d).mp (h d (List.mem_cons_self d t))
    have h1 : stepsNum d = some (Frac.ofInt n) := by rw [stepsNum, hn]
    have h2 : intSteps d = some n := by rw [intSteps, hn]
    simp only [List.filterMap_cons, h1, h2]
    show (Frac.add (Frac.ofInt n) (fracSum (t.filterMap stepsNum))).val = _
    rw [Frac.val_add, Frac.val_ofInt, ih fun d hd => h d (List.mem_cons_of_mem _ hd)]
    simp

theorem pyInt_groupTotal (D : List Doc) (u : String)
    (h : ∀ d ∈ D, hasIntSteps d = true) :
    pyInt (groupTotal D (Value.vStr u)) = userIntSum D u := by
  rw [pyInt_eq_ratTrunc, groupTotal,
    fracSum_val_intSum _ fun d hd => h d (List.mem_filter.mp hd).1,
    ratTrunc_intCast]
  rfl


/-! ## Claims -/

theorem strTrunc_length_le (s : String) (n : ℕ) : (strTrunc s n).length ≤ n := by
  show (s.data.take n).length ≤ n
  rw [List.length_take]
  exact Nat.min_le_left _ _

theorem mem_get_documents (s : Store) (n : String) (q : Query) (lim : ℕ) (d : Doc)
    (h : d ∈ get_documents s n q lim) : d ∈ getColl s n := by
  rw [get_documents] at h
  exact (List.filter_sublist _).subset ((List.take_sublist _ _).subset h)

/-- C3: when the store handle is absent (`db is None`), each of the four
data-dependent operations (create step log, list step logs, leaderboard,
create user) fails with the same HTTP 500 "Database not configured"
response; the error carries no result, so no partial result is returned
and no store interaction happens. -/
theorem store_absent_uniform_500 (log : StepLog) (payload : Doc)
    (user : Option String) (sd ed sd2 ed2 : Option ℕ) (lim lim2 : ℕ) :
    add_steps none log = Except.error dbNotConfigured ∧
    list_steps none user sd ed lim = Except.error dbNotConfigured ∧
    leaderboard none sd2 ed2 lim2 = Except.error dbNotConfigured ∧
    create_user none payload = Except.error dbNotConfigured ∧
    dbNotConfigured = ⟨500, "Database not configured"⟩ :=
  ⟨rfl, rfl, rfl, rfl, rfl⟩

/-- C8: supplying the `user` query parameter as the empty string adds no
user constraint (`if user:` is false for `""`): the list operation
behaves exactly as if the parameter were omitted. -/
theorem list_steps_empty_user_no_constraint (db : Option Store)
    (sd ed : Option ℕ) (lim : ℕ) :
    list_steps db (some "") sd ed lim = list_steps db none sd ed lim := by
  cases db with
  | none => rfl
  | some s => simp [list_steps, truthyUser]

/-- C7: the diagnostics endpoint is total and best-effort: it always
returns a status payload listing at most 10 collection names; a failing
introspection query is rendered inside the payload as an error string
truncated to at most 50 characters rather than propagated. -/
theorem test_database_reports (db : Option DbInfo) (urlSet nameSet : Bool) :
    (test_database db urlSet nameSet).collections.length ≤ 10 ∧
    (∀ info e, db = some info → info.listCollectionNames = Except.error e →
      (test_database db urlSet nameSet).database =
        "⚠️  Connected but Error: " ++ strTrunc e 50 ∧ (strTrunc e 50).length ≤ 50) ∧
    (∀ info cols, db = some info → info.listCollectionNames = Except.ok cols →
      (test_database db urlSet nameSet).collections = cols.take 10) := by
  refine ⟨?_, ?_, ?_⟩
  · cases db with
    | none => simp [test_database]
    | some info =>
      cases h : info.listCollectionNames with
      | ok cols =>
        simp only [test_database, h]
        rw [List.length_take]
        exact Nat.min_le_left _ _
      | error e => simp [test_database, h]
  · rintro info e rfl he
    exact ⟨by simp [test_database, he], strTrunc_length_le e 50⟩
  · rintro info cols rfl hc
    simp [test_database, hc]

def entryOnDay1 : Doc :=
  [("user", Value.vStr "a"), ("steps", Value.vInt 1),
   ("date", Value.vDate 1), ("_id", Value.vOid 0)]

def storeC4 : Store := ⟨[("steplog", [entryOnDay1])], 1⟩

/-- C4 counterexample: with both bounds given but inverted
(start_date = 1, end_date = 0) the stored entry dated exactly on
`start_date` matches neither the list query nor the leaderboard match
stage, refuting "an entry dated exactly on start_date ... is always
included". -/
theorem date_bounds_not_always_inclusive :
    alookup entryOnDay1 "date" = some (Value.vDate 1) ∧
    dateOk (dateFilterOf (some 1) (some 0)) entryOnDay1 = false ∧
    list_steps (some storeC4) none (some 1) (some 0) 50 = Except.ok [] ∧
    leaderboard (some storeC4) (some 1) (some 0) 10 = Except.ok [] :=
  ⟨rfl, rfl, rfl, rfl⟩

/-- C4 (amended): both operations build the date constraint by the same
three-way rule, with `$gte`/`$lte` bounds that are inclusive; an entry
dated exactly on a one-sided bound is always included, and with both
bounds given an entry dated exactly on `start_date` or `end_date` is
included provided `start_date ≤ end_date` (with inverted bounds the
range is empty). -/
theorem date_filter_inclusive_rule (a b x : ℕ) (d : Doc)
    (hdate : alookup d "date" = some (Value.vDate x)) :
    (dateFilterOf (some a) (some b) = ⟨some a, some b⟩ ∧
     dateFilterOf (some a) none = ⟨some a, none⟩ ∧
     dateFilterOf none (some b) = ⟨none, some b⟩ ∧
     dateFilterOf none none = ⟨none, none⟩) ∧
    (dateOk (dateFilterOf (some a) (some b)) d = true ↔ a ≤ x ∧ x ≤ b) ∧
    (dateOk (dateFilterOf (some a) none) d = true ↔ a ≤ x) ∧
    (dateOk (dateFilterOf none (some b)) d = true ↔ x ≤ b) ∧
    dateOk (dateFilterOf none none) d = true ∧
    (a ≤ b → x = a ∨ x = b → dateOk (dateFilterOf (some a) (some b)) d = true) ∧
    (x = a → dateOk (dateFilterOf (some a) none) d = true) ∧
    (x = b → dateOk (dateFilterOf none (some b)) d = true) := by
  have hab : dateOk (dateFilterOf (some a) (some b)) d = true ↔ a ≤ x ∧ x ≤ b := by
    simp [dateOk, dateFilterOf, hdate]
  have ha : dateOk (dateFilterOf (some a) none) d = true ↔ a ≤ x := by
    simp [dateOk, dateFilterOf, hdate]
  have hb : dateOk (dateFilterOf none (some b)) d = true ↔ x ≤ b := by
    simp [dateOk, dateFilterOf, hdate]
  refine ⟨⟨rfl, rfl, rfl, rfl⟩, hab, ha, hb, rfl, ?_, ?_, ?_⟩
  · intro hle hx
    exact hab.mpr (by omega)
  · intro hx
    exact ha.mpr (by omega)
  · intro hx
    exact hb.mpr (by omega)

/-- C4 witness at concrete inputs. -/
theorem date_filter_inclusive_rule_witness :
    dateOk (dateFilterOf (some 1) (some 3)) [("date", Value.vDate 1)] = true ∧
    dateOk (dateFilterOf (some 1) none) [("date", Value.vDate 1)] = true :=
  ⟨((date_filter_inclusive_rule 1 3 1 [("date", Value.vDate 1)] rfl).2.2.2.2.2.1)
      (by decide) (Or.inl rfl),
   ((date_filter_inclusive_rule 1 3 1 [("date", Value.vDate 1)] rfl).2.2.2.2.2.2.1) rfl⟩

/-- C6: every record the list operation returns is its stored document
with the internal `_id` removed and exposed instead as the public string
field `id` holding `str(_id)`; every other field (user, steps, date,
note, timestamps) is carried over unchanged in key and value. -/
theorem list_steps_public_id (s : Store) (user : Option String) (sd ed : Option ℕ)
    (lim : ℕ) (hid : ∀ d ∈ getColl s "steplog", (alookup d "_id").isSome = true) :
    ∃ L, list_steps (some s) user sd ed lim = Except.ok L ∧
      ∀ r ∈ L, ∃ d ∈ getColl s "steplog", ∃ v,
        r = serialize_doc d ∧ alookup d "_id" = some v ∧
        alookup r "_id" = none ∧
        alookup r "id" = some (Value.vStr (valueToString v)) ∧
        ∀ k, k ≠ "_id" → k ≠ "id" → alookup r k = alookup d k := by
  refine ⟨_, rfl, ?_⟩
  intro r hr
  rw [List.mem_map] at hr
  obtain ⟨d, hd, rfl⟩ := hr
  have hdc : d ∈ getColl s "steplog" := mem_get_documents _ _ _ _ _ hd
  obtain ⟨v, hv⟩ := Option.isSome_iff_exists.mp (hid d hdc)
  exact ⟨d, hdc, v, rfl, hv, (serialize_doc_id d v hv).2, (serialize_doc_id d v hv).1,
    fun k h1 h2 => serialize_doc_other d k h1 h2⟩

/-- C6 witness at a concrete store. -/
theorem list_steps_public_id_witness :
    ∃ L, list_steps (some storeC4) none none none 50 = Except.ok L ∧
      ∀ r ∈ L, ∃ d ∈ getColl storeC4 "steplog", ∃ v,
        r = serialize_doc d ∧ alookup d "_id" = some v ∧
        alookup r "_id" = none ∧
        alookup r "id" = some (Value.vStr (valueToString v)) ∧
        ∀ k, k ≠ "_id" → k ≠ "id" → alookup r k = alookup d k :=
  list_steps_public_id storeC4 none none none 50 (by decide)

def docWithBothIds : Doc :=
  [("_id", Value.vOid 5), ("id", Value.vStr "old"), ("user", Value.vStr "a")]

def docPlain : Doc := [("user", Value.vStr "bob"), ("steps", Value.vInt 3)]

/-- C9 counterexample: on a document carrying both `_id` and an `id`
field, `serialize_doc` overwrites the input's `id` field with `str(_id)`,
so not every non-`_id` field of the input appears unchanged in the
output. -/
theorem serialize_doc_overwrites_id :
    alookup docWithBothIds "id" = some (Value.vStr "old") ∧
    alookup (serialize_doc docWithBothIds) "id" = some (Value.vStr "5") ∧
    (some (Value.vStr "5") : Option Value) ≠ some (Value.vStr "old") := by
  decide

/-- C9 (amended): `serialize_doc` builds a fresh mapping (in the embedding
it is a pure function of its input); every field of the input other than
`_id` and `id` appears in the output unchanged in key and value, and if
the input has no `_id` field the output equals the input (in particular
no `id` field is added). -/
theorem serialize_doc_frame (d : Doc) :
    (∀ k, k ≠ "_id" → k ≠ "id" → alookup (serialize_doc d) k = alookup d k) ∧
    (alookup d "_id" = none → serialize_doc d = d) :=
  ⟨fun k h1 h2 => serialize_doc_other d k h1 h2, serialize_doc_no_id d⟩

/-- C9 witness at concrete documents. -/
theorem serialize_doc_frame_witness :
    alookup (serialize_doc docWithBothIds) "user" = alookup docWithBothIds "user" ∧
    serialize_doc docPlain = docPlain :=
  ⟨(serialize_doc_frame docWithBothIds).1 "user" (by decide) (by decide),
   (serialize_doc_frame docPlain).2 (by decide)⟩

theorem matchedDocs_subset (s : Store) (sd ed : Option ℕ) :
    ∀ d ∈ matchedDocs s sd ed, d ∈ getColl s "steplog" := by
  intro d hd
  rw [matchedDocs, matchStage_eq_filter] at hd
  exact (List.filter_sublist _).subset hd

theorem groupStage_key (D : List Doc) (g : Group) (hg : g ∈ groupStage D) :
    (∃ d ∈ D, keyOf d = g.key) ∧ g.total = groupTotal D g.key := by
  rw [groupStage, List.mem_map] at hg
  obtain ⟨k, hk, rfl⟩ := hg
  rw [mem_distinctKeys, List.mem_map] at hk
  obtain ⟨d, hd, hkd⟩ := hk
  exact ⟨⟨d, hd, hkd⟩, rfl⟩

theorem groupStage_complete (D : List Doc) (d : Doc) (hd : d ∈ D) :
    (⟨keyOf d, groupTotal D (keyOf d)⟩ : Group) ∈ groupStage D := by
  rw [groupStage, List.mem_map]
  exact ⟨keyOf d, (mem_distinctKeys _ _).mpr (List.mem_map.mpr ⟨d, hd, rfl⟩), rfl⟩

theorem take_sort_group_mem (D : List Doc) (lim : ℕ) (g : Group)
    (hg : g ∈ (sortDesc (groupStage D)).take lim) :
    (∃ d ∈ D, keyOf d = g.key) ∧ g.total = groupTotal D g.key :=
  groupStage_key D g ((mem_sortDesc g _).mp ((List.take_sublist _ _).subset hg))

/-- With every stored step document carrying a string `user`, the
leaderboard handler succeeds and returns the projected, sorted, truncated
groups. -/
theorem leaderboard_eq_map (s : Store) (sd ed : Option ℕ) (lim : ℕ)
    (hU : ∀ d ∈ getColl s "steplog", hasStrUser d = true) :
    leaderboard (some s) sd ed lim =
      Except.ok (((sortDesc (groupStage (matchedDocs s sd ed))).take lim).map
        fun g => ⟨keyStr g.key, pyInt g.total⟩) := by
  rw [leaderboard]
  apply rowsOf_eq
  intro g hg
  obtain ⟨⟨d, hd, hkd⟩, -⟩ := take_sort_group_mem _ _ _ hg
  obtain ⟨u, hu⟩ := (hasStrUser_iff d).mp (hU d (matchedDocs_subset s sd ed d hd))
  exact ⟨u, by rw [← hkd, keyOf_of_user d u hu]⟩

/-- C1 (amended): over well-formed stored entries, every returned
leaderboard row belongs to a user with at least one entry within the
bounds and its `total_steps` is the arithmetic sum of the steps of all of
that user's entries within the bounds; a user with zero matching entries
never appears; and every user with a matching entry receives a row
whenever the number of distinct matching users does not exceed the
limit (the `$limit` stage can otherwise drop users). -/
theorem leaderboard_per_user_sums (s : Store) (sd ed : Option ℕ) (lim : ℕ)
    (hwf : ∀ d ∈ getColl s "steplog", wfStepDoc d = true) :
    ∃ L, leaderboard (some s) sd ed lim = Except.ok L ∧
      (∀ r ∈ L,
        (∃ d ∈ matchedDocs s sd ed, alookup d "user" = some (Value.vStr r.user)) ∧
        r.total_steps = userIntSum (matchedDocs s sd ed) r.user) ∧
      (∀ u, (∃ d ∈ matchedDocs s sd ed, alookup d "user" = some (Value.vStr u)) →
        (distinctKeys ((matchedDocs s sd ed).map keyOf)).length ≤ lim →
        ∃ r ∈ L, r.user = u) := by
  have hU : ∀ d ∈ getColl s "steplog", hasStrUser d = true := by
    intro d hd
    exact (Bool.and_eq_true ..).mp (hwf d hd) |>.1
  have hI : ∀ d ∈ matchedDocs s sd ed, hasIntSteps d = true := by
    intro d hd
    exact (Bool.and_eq_true ..).mp (hwf d (matchedDocs_subset s sd ed d hd)) |>.2
  refine ⟨_, leaderboard_eq_map s sd ed lim hU, ?_, ?_⟩
  · intro r hr
    rw [List.mem_map] at hr
    obtain ⟨g, hg, rfl⟩ := hr
    obtain ⟨⟨d, hd, hkd⟩, htot⟩ := take_sort_group_mem _ _ _ hg
    obtain ⟨u, hu⟩ := (hasStrUser_iff d).mp (hU d (matchedDocs_subset s sd ed d hd))
    have hkey : g.key = Value.vStr u := by rw [← hkd, keyOf_of_user d u hu]
    constructor
    · exact ⟨d, hd, by rw [hu]; simp [hkey, keyStr]⟩
    · show pyInt g.total = userIntSum (matchedDocs s sd ed) (keyStr g.key)
      rw [htot, hkey]
      exact pyInt_groupTotal _ u hI
  · intro u ⟨d, hd, hu⟩ hlen
    have hkd : keyOf d = Value.vStr u := keyOf_of_user d u hu
    have hg : (⟨Value.vStr u, groupTotal (matchedDocs s sd ed) (Value.vStr u)⟩ : Group)
        ∈ groupStage (matchedDocs s sd ed) := by
      have := groupStage_complete (matchedDocs s sd ed) d hd
      rwa [hkd] at this
    have hlen2 : (sortDesc (groupStage (matchedDocs s sd ed))).length ≤ lim := by
      rw [length_sortDesc, groupStage, List.length_map]
      exact hlen
    rw [List.take_of_length_le hlen2]
    refine ⟨⟨keyStr (Value.vStr u), pyInt (groupTotal (matchedDocs s sd ed) (Value.vStr u))⟩,
      List.mem_map.mpr ⟨_, (mem_sortDesc _ _).mpr hg, rfl⟩, rfl⟩

/-- C5: the leaderboard returns at most `limit` rows, sorted in
descending order of `total_steps` (the handler signature supplies the
default `limit = 10`). -/
theorem leaderboard_limit_sorted (s : Store) (sd ed : Option ℕ) (lim : ℕ)
    (hU : ∀ d ∈ getColl s "steplog", hasStrUser d = true) :
    ∃ L, leaderboard (some s) sd ed lim = Except.ok L ∧ L.length ≤ lim ∧
      L.Pairwise (fun a b => b.total_steps ≤ a.total_steps) := by
  refine ⟨_, leaderboard_eq_map s sd ed lim hU, ?_, ?_⟩
  · rw [List.length_map, List.length_take]
    exact Nat.min_le_left _ _
  · apply List.pairwise_map.mpr
    have hs := (pairwise_sortDesc (groupStage (matchedDocs s sd ed))).sublist
      (List.take_sublist lim _)
    exact hs.imp fun hab => pyInt_mono hab

/-- C10: every returned leaderboard row carries an integer `total_steps`
obtained by `int()`-truncation of the raw `$sum` aggregation value of that
user's group — even when the store yields a non-integral numeric sum. -/
theorem leaderboard_int_total (s : Store) (sd ed : Option ℕ) (lim : ℕ)
    (hU : ∀ d ∈ getColl s "steplog", hasStrUser d = true) :
    ∃ L, leaderboard (some s) sd ed lim = Except.ok L ∧
      ∀ r ∈ L, r.total_steps =
        ratTrunc (groupTotal (matchedDocs s sd ed) (Value.vStr r.user)).val := by
  refine ⟨_, leaderboard_eq_map s sd ed lim hU, ?_⟩
  intro r hr
  rw [List.mem_map] at hr
  obtain ⟨g, hg, rfl⟩ := hr
  obtain ⟨⟨d, hd, hkd⟩, htot⟩ := take_sort_group_mem _ _ _ hg
  obtain ⟨u, hu⟩ := (hasStrUser_iff d).mp (hU d (matchedDocs_subset s sd ed d hd))
  have hkey : g.key = Value.vStr u := by rw [← hkd, keyOf_of_user d u hu]
  show pyInt g.total = ratTrunc (groupTotal _ (Value.vStr (keyStr g.key))).val
  rw [htot, hkey, pyInt_eq_ratTrunc]
  rfl

/-! ## Concrete stores for counterexamples and witnesses -/

def aliceDocs : List Doc :=
  [[("user", Value.vStr "alice"), ("steps", Value.vInt 5000),
    ("date", Value.vDate 1), ("_id", Value.vOid 0)],
   [("user", Value.vStr "alice"), ("steps", Value.vInt 3000),
    ("date", Value.vDate 2), ("_id", Value.vOid 1)]]

/-- The store of the worked example in spec §8. -/
def stAlice : Store := ⟨[("steplog", aliceDocs)], 2⟩

def elevenDocs : List Doc :=
  (List.range 11).map fun i =>
    [("user", Value.vStr ("u" ++ toString i)), ("steps", Value.vInt 1),
     ("date", Value.vDate 0), ("_id", Value.vOid i)]

/-- Eleven users with one matching entry each. -/
def st11 : Store := ⟨[("steplog", elevenDocs)], 11⟩

def rows10 : List LeaderboardRow := (List.range 10).map fun i => ⟨"u" ++ toString i, 1⟩

/-- A store whose `steps` value is the non-integral numeric 5/2. -/
def stFloat : Store :=
  ⟨[("steplog", [[("user", Value.vStr "a"), ("steps", Value.vNum ⟨5, 2⟩),
    ("_id", Value.vOid 0)]])], 1⟩

/-- C1 counterexample: with 11 users each having a matching entry and the
default limit 10, the leaderboard returns no row for user "u10" even
though that user has an entry within the (absent) bounds — the claim's
"one row per user that has at least one entry" fails. -/
theorem leaderboard_truncation_counterexample :
    (∃ d ∈ getColl st11 "steplog", alookup d "user" = some (Value.vStr "u10")) ∧
    leaderboard (some st11) none none 10 = Except.ok rows10 ∧
    ∀ r ∈ rows10, r.user ≠ "u10" := by
  refine ⟨by decide, rfl, by decide⟩

/-- C1 witness: the spec §8 example store, bounds 1..2, limit 10. -/
theorem leaderboard_per_user_sums_witness :
    ∃ L, leaderboard (some stAlice) (some 1) (some 2) 10 = Except.ok L ∧
      (∀ r ∈ L,
        (∃ d ∈ matchedDocs stAlice (some 1) (some 2),
          alookup d "user" = some (Value.vStr r.user)) ∧
        r.total_steps = userIntSum (matchedDocs stAlice (some 1) (some 2)) r.user) ∧
      (∀ u, (∃ d ∈ matchedDocs stAlice (some 1) (some 2),
          alookup d "user" = some (Value.vStr u)) →
        (distinctKeys ((matchedDocs stAlice (some 1) (some 2)).map keyOf)).length ≤ 10 →
        ∃ r ∈ L, r.user = u) :=
  leaderboard_per_user_sums stAlice (some 1) (some 2) 10 (by decide)

/-- C5 witness. -/
theorem leaderboard_limit_sorted_witness :
    ∃ L, leaderboard (some stAlice) none none 10 = Except.ok L ∧ L.length ≤ 10 ∧
      L.Pairwise (fun a b => b.total_steps ≤ a.total_steps) :=
  leaderboard_limit_sorted stAlice none none 10 (by decide)

/-- C10 witness: the non-integral sum 5/2 is truncated to the integer 2. -/
theorem leaderboard_int_total_witness :
    leaderboard (some stFloat) none none 10 = Except.ok [⟨"a", 2⟩] ∧
    ∃ L, leaderboard (some stFloat) none none 10 = Except.ok L ∧
      ∀ r ∈ L, r.total_steps =
        ratTrunc (groupTotal (matchedDocs stFloat none none) (Value.vStr r.user)).val :=
  ⟨rfl, leaderboard_int_total stFloat none none 10 (by decide)⟩

/-! ## C2: create-then-list round trip -/

theorem getColl_create (s : Store) (n : String) (p : Doc) :
    getColl (create_document s n p).1 n =
      getColl s n ++ [p ++ [("_id", Value.vOid s.nextId)]] := by
  show (alookup (aset s.colls n (getColl s n ++ [p ++ [("_id", Value.vOid s.nextId)]])) n).getD []
      = _
  rw [alookup_aset_self]
  rfl

theorem list_steps_ok (s : Store) (u : String) (hu : u ≠ "") (sd ed : Option ℕ)
    (lim : ℕ) :
    list_steps (some s) (some u) sd ed lim =
      Except.ok ((((getColl s "steplog").filter
        (docMatches ⟨some u, dateFilterOf sd ed⟩)).take lim).map serialize_doc) := by
  rw [list_steps, get_documents, truthyUser, if_neg hu]

/-- C2 (amended): for every valid submission, from any store state in
which fewer than 50 records (the list operation's default limit) already
match that user and date, create followed by the filtered list returns a
record whose steps, date and note equal the submitted values, under a
fresh non-empty string id distinct from every previously issued id. -/
theorem create_then_list_roundtrip (s : Store) (log : StepLog)
    (hvalid : ValidStepLog log)
    (hroom : ((getColl s "steplog").filter
      (docMatches ⟨some log.user, dateFilterOf (some log.date) (some log.date)⟩)).length
        < 50) :
    ∃ s2 idStr, add_steps (some s) log = Except.ok (s2, idStr) ∧
      idStr = oidStr s.nextId ∧ idStr ≠ "" ∧
      (∀ k, k < s.nextId → idStr ≠ oidStr k) ∧
      ∃ L, list_steps (some s2) (some log.user) (some log.date) (some log.date) 50 =
          Except.ok L ∧
        ∃ r ∈ L, alookup r "steps" = some (Value.vInt (log.steps : ℤ)) ∧
          alookup r "date" = some (Value.vDate log.date) ∧
          alookup r "note" = some (noteValue log.note) ∧
          alookup r "id" = some (Value.vStr idStr) := by
  have h_user : alookup (stepLogDoc log ++ [("_id", Value.vOid s.nextId)]) "user"
      = some (Value.vStr log.user) := rfl
  have h_steps : alookup (stepLogDoc log ++ [("_id", Value.vOid s.nextId)]) "steps"
      = some (Value.vInt (log.steps : ℤ)) := rfl
  have h_date : alookup (stepLogDoc log ++ [("_id", Value.vOid s.nextId)]) "date"
      = some (Value.vDate log.date) := rfl
  have h_note : alookup (stepLogDoc log ++ [("_id", Value.vOid s.nextId)]) "note"
      = some (noteValue log.note) := rfl
  have h_id : alookup (stepLogDoc log ++ [("_id", Value.vOid s.nextId)]) "_id"
      = some (Value.vOid s.nextId) := rfl
  have hq : docMatches ⟨some log.user, dateFilterOf (some log.date) (some log.date)⟩
      (stepLogDoc log ++ [("_id", Value.vOid s.nextId)]) = true := by
    simp [docMatches, h_user, dateOk, dateFilterOf, h_date]
  have hfilter : (getColl (create_document s "steplog" (stepLogDoc log)).1 "steplog").filter
      (docMatches ⟨some log.user, dateFilterOf (some log.date) (some log.date)⟩)
      = (getColl s "steplog").filter
          (docMatches ⟨some log.user, dateFilterOf (some log.date) (some log.date)⟩)
        ++ [stepLogDoc log ++ [("_id", Value.vOid s.nextId)]] := by
    rw [getColl_create, List.filter_append]
    congr 1
    simp [List.filter, hq]
  have hlen : (((getColl s "steplog").filter
      (docMatches ⟨some log.user, dateFilterOf (some log.date) (some log.date)⟩))
      ++ [stepLogDoc log ++ [("_id", Value.vOid s.nextId)]]).length ≤ 50 := by
    rw [List.length_append]
    simp only [List.length_singleton]
    omega
  have hls : list_steps (some (create_document s "steplog" (stepLogDoc log)).1)
      (some log.user) (some log.date) (some log.date) 50 =
      Except.ok ((((getColl s "steplog").filter
          (docMatches ⟨some log.user, dateFilterOf (some log.date) (some log.date)⟩))
        ++ [stepLogDoc log ++ [("_id", Value.vOid s.nextId)]]).map serialize_doc) := by
    rw [list_steps_ok _ _ hvalid, hfilter, List.take_of_length_le hlen]
  refine ⟨(create_document s "steplog" (stepLogDoc log)).1, oidStr s.nextId, rfl, rfl,
    oidStr_ne_empty _, ?_, _, hls, serialize_doc (stepLogDoc log ++ [("_id", Value.vOid s.nextId)]),
    ?_, ?_, ?_, ?_, ?_⟩
  · intro k hk heq
    have := oidStr_injective _ _ heq
    omega
  · exact List.mem_map.mpr ⟨_, List.mem_append_right _ (List.mem_singleton.mpr rfl), rfl⟩
  · rw [serialize_doc_other _ _ (by decide) (by decide)]
    exact h_steps
  · rw [serialize_doc_other _ _ (by decide) (by decide)]
    exact h_date
  · rw [serialize_doc_other _ _ (by decide) (by decide)]
    exact h_note
  · exact (serialize_doc_id _ _ h_id).1

/-- C2 witness: an empty store and the submission ("alice", 5000, day 1). -/
theorem create_then_list_roundtrip_witness :
    ∃ s2 idStr,
      add_steps (some (⟨[], 0⟩ : Store)) ⟨"alice", 5000, 1, none⟩ = Except.ok (s2, idStr) ∧
      idStr = oidStr 0 ∧ idStr ≠ "" ∧
      (∀ k, k < 0 → idStr ≠ oidStr k) ∧
      ∃ L, list_steps (some s2) (some "alice") (some 1) (some 1) 50 = Except.ok L ∧
        ∃ r ∈ L, alookup r "steps" = some (Value.vInt (5000 : ℤ)) ∧
          alookup r "date" = some (Value.vDate 1) ∧
          alookup r "note" = some (noteValue none) ∧
          alookup r "id" = some (Value.vStr idStr) :=
  create_then_list_roundtrip ⟨[], 0⟩ ⟨"alice", 5000, 1, none⟩ (by decide) (by decide)

def dupDocs : List Doc :=
  (List.range 50).map fun i =>
    [("user", Value.vStr "alice"), ("steps", Value.vInt 1),
     ("date", Value.vDate 0), ("_id", Value.vOid i)]

/-- Fifty records already matching user "alice" on day 0. -/
def st50 : Store := ⟨[("steplog", dupDocs)], 50⟩

def log7 : StepLog := ⟨"alice", 7, 0, none⟩

/-- The store after creating the new log in `st50`. -/
def st50after : Store := (create_document st50 "steplog" (stepLogDoc log7)).1

/-- C2 counterexample (on the spec-modelled store): with 50 records
already matching ("alice", day 0), creating a new log (steps = 7) and
listing with the default limit 50 returns 50 records, none of which is
the newly created one — the round-trip property fails as stated. -/
theorem create_then_list_counterexample :
    add_steps (some st50) log7 = Except.ok (st50after, oidStr 50) ∧
    (∃ d ∈ getColl st50after "steplog", alookup d "steps" = some (Value.vInt 7)) ∧
    (list_steps (some st50after) (some "alice") (some 0) (some 0) 50).toOption.isSome
      = true ∧
    ((list_steps (some st50after) (some "alice") (some 0) (some 0) 50).toOption.getD
      []).length = 50 ∧
    ∀ r ∈ (list_steps (some st50after) (some "alice") (some 0) (some 0) 50).toOption.getD
      [], alookup r "steps" ≠ some (Value.vInt 7) := by
  refine ⟨rfl, by decide, rfl, rfl, by decide⟩

/-- C7 witness: a failing introspection query at a concrete state. -/
theorem test_database_reports_witness :
    (test_database (some ⟨some "db", Except.error "boom"⟩) true false).database =
      "⚠️  Connected but Error: " ++ strTrunc "boom" 50 ∧
    (strTrunc "boom" 50).length ≤ 50 :=
  (test_database_reports (some ⟨some "db", Except.error "boom"⟩) true false).2.1
    ⟨some "db", Except.error "boom"⟩ "boom" rfl rfl

end StepTracker
